import Mathlib

/-!
Verification of the `bulk_search_tree` multi-pattern substring index and the
surrounding worker code of the bluehook repository, embedded shallowly.

Subscribers (`User` values in the source) are identified by their process-unique
numeric id (`user.id : u64`), modelled as `Nat`; every membership test in the
source compares ids (`u.id == user.id`), so a branch's subscriber list is
modelled as the list of those ids.  Byte strings (`&[u8]`) are modelled as
`List Nat`.

`BulkSearchBranch` (src/worker/src/bulk_search_tree.rs, line 32) holds
`mapping: Vec<Option<(Vec<u8>, BulkSearchBranch)>>` whose options, per the
comment in the source, are always `Some`, and a `users` list; it is modelled by
the nested inductive `Branch` below with the option layer removed.
-/

set_option autoImplicit false

namespace Bluehook

/-- One node of the radix tree: the edge list (`mapping`) and the subscriber
ids whose phrase terminates here (`users`). -/
inductive Branch : Type where
  | node (mapping : List (List Nat × Branch)) (users : List Nat) : Branch

/-- The subscriber list of a branch. -/
def Branch.users : Branch → List Nat
  | .node _ us => us

/-- The edge list of a branch. -/
def Branch.mapping : Branch → List (List Nat × Branch)
  | .node m _ => m

/-- `startsWith a l` models Rust's `a.starts_with(l)` on byte slices: `l` is a
leading block of `a`. -/
def startsWith : List Nat → List Nat → Bool
  | _, [] => true
  | [], _ :: _ => false
  | x :: xs, y :: ys => x == y && startsWith xs ys

/-- Models the user-collection step of `walk_branch` (line 49):
`users.extend(branch.users.iter().filter(|u| consumed_users.insert(u.id)))`.
Given the branch users `us` and the consumed set `c`, returns the updated
consumed set and the freshly appended users, in branch order. -/
def collectUsers : List Nat → List Nat → List Nat × List Nat
  | [], c => (c, [])
  | x :: xs, c =>
    if x ∈ c then collectUsers xs c
    else
      let p := collectUsers xs (x :: c)
      (p.1, x :: p.2)

mutual

/-- `walk_branch` (bulk_search_tree.rs, lines 42-78): collect this branch's
users, then, unless the remaining path is empty, scan the edges for the first
one whose label is a leading block of the remaining path and recurse into it.
State is `(consumed_users, users)`. -/
def walk_branch (b : Branch) (remaining : List Nat) (c u : List Nat) :
    List Nat × List Nat :=
  match b with
  | .node m us =>
    let p := collectUsers us c
    if remaining.isEmpty then (p.1, u ++ p.2)
    else walk_nodes m remaining p.1 (u ++ p.2)

/-- The edge scan inside `walk_branch`'s `for node_opt in branch.mapping`
loop: the first edge whose label is consumed from the remaining path wins. -/
def walk_nodes (m : List (List Nat × Branch)) (remaining : List Nat)
    (c u : List Nat) : List Nat × List Nat :=
  match m with
  | [] => (c, u)
  | (label, child) :: rest =>
    if startsWith remaining label then
      walk_branch child (remaining.drop label.length) c u
    else walk_nodes rest remaining c u

end

/-- `split_node` (bulk_search_tree.rs, lines 81-96): split the edge
`(label, child)` at `split_at`, producing the junction branch that keeps the
old child under the label suffix and carries the new user. -/
def split_node (label : List Nat) (child : Branch) (split_at : Nat)
    (user : Nat) : List Nat × Branch :=
  (label.take split_at, .node [(label.drop split_at, child)] [user])

mutual

/-- `write_branch` (bulk_search_tree.rs, lines 99-147): if the remaining path
is empty, append the user here unless already present (returning whether the
tree changed); otherwise scan the edges. -/
def write_branch (b : Branch) (remaining : List Nat) (user : Nat) :
    Bool × Branch :=
  match b, remaining with
  | .node m us, [] =>
    if user ∈ us then (false, .node m us) else (true, .node m (us ++ [user]))
  | .node m us, r :: rs =>
    let p := write_nodes m (r :: rs) user
    (p.1, .node p.2 us)

/-- The edge scan inside `write_branch`'s loop over `branch.mapping`: descend
when the whole label is a leading block of the remaining path, split when the
label strictly extends the remaining path, otherwise move on; if no edge
matches, push a new edge labelled by the whole remaining path. -/
def write_nodes (m : List (List Nat × Branch)) (remaining : List Nat)
    (user : Nat) : Bool × List (List Nat × Branch) :=
  match m with
  | [] => (true, [(remaining, .node [] [user])])
  | (label, child) :: rest =>
    if label.length ≤ remaining.length then
      if startsWith remaining label then
        let p := write_branch child (remaining.drop label.length) user
        (p.1, (label, p.2) :: rest)
      else
        let p := write_nodes rest remaining user
        (p.1, (label, child) :: p.2)
    else if startsWith label remaining then
      (true, split_node label child remaining.length user :: rest)
    else
      let p := write_nodes rest remaining user
      (p.1, (label, child) :: p.2)

end

mutual

/-- `find_mut_branch` (bulk_search_tree.rs, lines 150-177), read-only view:
the branch reached after consuming the whole remaining path along whole edge
labels, or `none` when the descent gets stuck. -/
def find_mut_branch (b : Branch) (remaining : List Nat) : Option Branch :=
  match b, remaining with
  | b, [] => some b
  | .node m _, r :: rs => find_nodes m (r :: rs)

/-- The edge scan inside `find_mut_branch`: descend into the first edge whose
label is a leading block of the remaining path. -/
def find_nodes (m : List (List Nat × Branch)) (remaining : List Nat) :
    Option Branch :=
  match m with
  | [] => none
  | (label, child) :: rest =>
    if startsWith remaining label then
      find_mut_branch child (remaining.drop label.length)
    else find_nodes rest remaining

end

mutual

/-- The mutation performed by `remove_item` (bulk_search_tree.rs, lines
241-265) below the root: descend exactly as `find_mut_branch` and, at the
branch the descent ends on, `retain` every user with a different id.  `none`
is returned exactly when `find_mut_branch` returns `None` and the tree is
left untouched. -/
def remove_branch (b : Branch) (remaining : List Nat) (user : Nat) :
    Option Branch :=
  match b, remaining with
  | .node m us, [] => some (.node m (us.filter (fun x => x != user)))
  | .node m us, r :: rs =>
    match remove_nodes m (r :: rs) user with
    | none => none
    | some m2 => some (.node m2 us)

/-- The edge scan of the removal descent. -/
def remove_nodes (m : List (List Nat × Branch)) (remaining : List Nat)
    (user : Nat) : Option (List (List Nat × Branch)) :=
  match m with
  | [] => none
  | (label, child) :: rest =>
    if startsWith remaining label then
      match remove_branch child (remaining.drop label.length) user with
      | none => none
      | some child2 => some ((label, child2) :: rest)
    else
      match remove_nodes rest remaining user with
      | none => none
      | some rest2 => some ((label, child) :: rest2)

end

/-- The index tree: the 256-wide root array `first_byte` (bulk_search_tree.rs,
line 180), modelled as a total function from the first byte; the program only
ever indexes it with a byte value. -/
def Tree : Type := Nat → Branch

/-- A fresh branch: `BulkSearchBranch::default()`. -/
def emptyBranch : Branch := .node [] []

/-- `BulkSearchTree::new()` (lines 184-190): every root slot starts empty. -/
def emptyTree : Tree := fun _ => emptyBranch

/-- The loop of `find_all_matches` (lines 205-213): walk one root branch per
cursor position, threading the consumed set and the result list. -/
def find_loop (t : Tree) : List Nat → List Nat → List Nat → List Nat × List Nat
  | [], c, u => (c, u)
  | b :: rest, c, u =>
    let p := walk_branch (t b) rest c u
    find_loop t rest p.1 p.2

/-- `BulkSearchTree::find_all_matches` (bulk_search_tree.rs, lines 193-217). -/
def find_all_matches (t : Tree) (text : List Nat) : List Nat :=
  (find_loop t text [] []).2

/-- `BulkSearchTree::add_item` (bulk_search_tree.rs, lines 220-238): reject
the empty phrase, otherwise write below the root branch chosen by the first
byte. -/
def add_item (t : Tree) (subtext : List Nat) (user : Nat) : Bool × Tree :=
  match subtext with
  | [] => (false, t)
  | b :: rest =>
    let p := write_branch (t b) rest user
    (p.1, Function.update t b p.2)

/-- `BulkSearchTree::remove_item` (bulk_search_tree.rs, lines 241-265). -/
def remove_item (t : Tree) (subtext : List Nat) (user : Nat) : Bool × Tree :=
  match subtext with
  | [] => (false, t)
  | b :: rest =>
    match remove_branch (t b) rest user with
    | none => (false, t)
    | some br => (true, Function.update t b br)

/-- Phrase `p` is registered for subscriber `s` in tree `t`: the descent for
`p` (first byte selects the root branch, the rest is consumed by whole edge
labels, exactly as `find_mut_branch`) ends on a branch whose subscriber list
contains `s`. -/
def registered (t : Tree) (p : List Nat) (s : Nat) : Prop :=
  match p with
  | [] => False
  | b :: rest => ∃ br, find_mut_branch (t b) rest = some br ∧ s ∈ br.users

/-- Tree states produced by a sequence of `add_item` / `remove_item` calls
starting from the empty tree. -/
inductive Reachable : Tree → Prop where
  | empty : Reachable emptyTree
  | add (t : Tree) (p : List Nat) (u : Nat) :
      Reachable t → Reachable (add_item t p u).2
  | rem (t : Tree) (p : List Nat) (u : Nat) :
      Reachable t → Reachable (remove_item t p u).2

mutual

/-- All edge labels in the branch and below it are non-empty. -/
def labels_ok_branch : Branch → Bool
  | .node m _ => labels_ok_nodes m

/-- All edge labels in the edge list and below it are non-empty. -/
def labels_ok_nodes : List (List Nat × Branch) → Bool
  | [] => true
  | (label, child) :: rest =>
    !label.isEmpty && labels_ok_branch child && labels_ok_nodes rest

end

/-- No two labels of the edge list share a first byte.  Together with
non-emptiness of the labels this is exactly the Patricia condition "no two
edge labels share a non-empty common prefix". -/
def heads_distinct : List (List Nat × Branch) → Bool
  | [] => true
  | (label, _) :: rest =>
    rest.all (fun e => label.headD 0 != e.1.headD 0) && heads_distinct rest

mutual

/-- The Patricia invariant of the spec at the branch and everywhere below it:
labels are non-empty and, at each node, pairwise share no non-empty common
leading block. -/
def patricia_branch : Branch → Bool
  | .node m _ => heads_distinct m && patricia_nodes m

/-- The Patricia invariant for all children of an edge list. -/
def patricia_nodes : List (List Nat × Branch) → Bool
  | [] => true
  | (label, child) :: rest =>
    !label.isEmpty && patricia_branch child && patricia_nodes rest

end

/-- Every root branch of the tree satisfies the Patricia invariant. -/
def patricia_tree (t : Tree) : Prop := ∀ n, patricia_branch (t n) = true

/-- Every edge label anywhere in the tree is non-empty. -/
def labels_ok_tree (t : Tree) : Prop := ∀ n, labels_ok_branch (t n) = true

mutual

/-- All subscriber ids stored in the branch or below it. -/
def users_of_branch : Branch → List Nat
  | .node m us => us ++ users_of_nodes m

/-- All subscriber ids stored below the edges of an edge list. -/
def users_of_nodes : List (List Nat × Branch) → List Nat
  | [] => []
  | (_, child) :: rest => users_of_branch child ++ users_of_nodes rest

end

/-! ### Lemmas about `startsWith` -/

theorem startsWith_nil (a : List Nat) : startsWith a [] = true := by
  cases a <;> rfl

theorem startsWith_iff_take (a l : List Nat) :
    startsWith a l = true ↔ a.take l.length = l := by
  induction l generalizing a with
  | nil => simp [startsWith_nil]
  | cons y ys ih =>
    cases a with
    | nil => simp [startsWith]
    | cons x xs =>
      simp only [startsWith, Bool.and_eq_true, beq_iff_eq, List.length_cons,
        List.take_succ_cons, List.cons.injEq]
      exact and_congr Iff.rfl (ih xs)

theorem startsWith_refl (a : List Nat) : startsWith a a = true := by
  rw [startsWith_iff_take]
  exact List.take_length a

theorem startsWith_length_le {a l : List Nat} (h : startsWith a l = true) :
    l.length ≤ a.length := by
  rw [startsWith_iff_take] at h
  have h2 := congrArg List.length h
  rw [List.length_take] at h2
  exact min_eq_left_iff.mp h2

theorem startsWith_trans {a b c : List Nat} (h1 : startsWith a b = true)
    (h2 : startsWith b c = true) : startsWith a c = true := by
  have hlen := startsWith_length_le h2
  rw [startsWith_iff_take] at h1 h2 ⊢
  rw [← h1, List.take_take, Nat.min_eq_left hlen] at h2
  exact h2

theorem startsWith_append_left (l q : List Nat) :
    startsWith (l ++ q) l = true := by
  rw [startsWith_iff_take]
  exact List.take_left l q

theorem startsWith_append {a l q : List Nat} (h1 : startsWith a l = true)
    (h2 : startsWith (a.drop l.length) q = true) :
    startsWith a (l ++ q) = true := by
  rw [startsWith_iff_take] at h1 h2 ⊢
  rw [List.length_append, List.take_add, h1, h2]

theorem startsWith_drop {a q : List Nat} (l : List Nat)
    (h1 : startsWith a q = true) :
    startsWith (a.drop l.length) (q.drop l.length) = true := by
  rw [startsWith_iff_take] at h1 ⊢
  have := congrArg (List.drop l.length) h1
  rw [List.drop_take] at this
  rw [List.length_drop, this]

theorem startsWith_head {a l : List Nat} (h : startsWith a l = true)
    (hl : l ≠ []) : a ≠ [] ∧ l.headD 0 = a.headD 0 := by
  cases l with
  | nil => exact absurd rfl hl
  | cons y ys =>
    cases a with
    | nil => simp [startsWith] at h
    | cons x xs =>
      simp only [startsWith, Bool.and_eq_true, beq_iff_eq] at h
      simp [h.1]

/-! ### Lemmas about `collectUsers` -/

theorem collectUsers_fst_mem (us : List Nat) (c : List Nat) (x : Nat) :
    x ∈ (collectUsers us c).1 ↔ x ∈ c ∨ x ∈ (collectUsers us c).2 := by
  induction us generalizing c with
  | nil => simp [collectUsers]
  | cons y ys ih =>
    by_cases hy : y ∈ c
    · simp only [collectUsers, if_pos hy]
      exact ih c
    · simp only [collectUsers, if_neg hy, List.mem_cons]
      rw [ih (y :: c)]
      simp only [List.mem_cons]
      tauto

theorem collectUsers_snd_sub {us c : List Nat} {x : Nat}
    (h : x ∈ (collectUsers us c).2) : x ∈ us := by
  induction us generalizing c with
  | nil => simp [collectUsers] at h
  | cons y ys ih =>
    by_cases hy : y ∈ c
    · simp only [collectUsers, if_pos hy] at h
      exact List.mem_cons_of_mem y (ih h)
    · simp only [collectUsers, if_neg hy, List.mem_cons] at h
      rcases h with h | h
      · simp [h]
      · exact List.mem_cons_of_mem y (ih h)

theorem collectUsers_snd_new {us c : List Nat} {x : Nat}
    (h : x ∈ (collectUsers us c).2) : x ∉ c := by
  induction us generalizing c with
  | nil => simp [collectUsers] at h
  | cons y ys ih =>
    by_cases hy : y ∈ c
    · simp only [collectUsers, if_pos hy] at h
      exact ih h
    · simp only [collectUsers, if_neg hy, List.mem_cons] at h
      rcases h with h | h
      · subst h; exact hy
      · intro hc
        exact ih h (List.mem_cons_of_mem y hc)

theorem collectUsers_snd_nodup (us c : List Nat) :
    (collectUsers us c).2.Nodup := by
  induction us generalizing c with
  | nil => simp [collectUsers]
  | cons y ys ih =>
    by_cases hy : y ∈ c
    · simpa only [collectUsers, if_pos hy] using ih c
    · simp only [collectUsers, if_neg hy, List.nodup_cons]
      refine ⟨fun hmem => ?_, ih (y :: c)⟩
      exact collectUsers_snd_new hmem (List.mem_cons_self y c)

theorem collectUsers_mem_fst {us c : List Nat} {x : Nat}
    (h : x ∈ us ∨ x ∈ c) : x ∈ (collectUsers us c).1 := by
  induction us generalizing c with
  | nil =>
    rcases h with h | h
    · simp at h
    · simpa [collectUsers] using h
  | cons y ys ih =>
    by_cases hy : y ∈ c
    · simp only [collectUsers, if_pos hy]
      rcases h with h | h
      · rcases List.mem_cons.mp h with h | h
        · exact ih (Or.inr (h ▸ hy))
        · exact ih (Or.inl h)
      · exact ih (Or.inr h)
    · simp only [collectUsers, if_neg hy]
      rcases h with h | h
      · rcases List.mem_cons.mp h with h | h
        · exact ih (Or.inr (by simp [h]))
        · exact ih (Or.inl h)
      · exact ih (Or.inr (List.mem_cons_of_mem y h))

/-! ### Monotonicity of the walk on the consumed set -/

mutual

theorem walk_branch_mono (b : Branch) (rem c u : List Nat) (x : Nat)
    (hx : x ∈ c) : x ∈ (walk_branch b rem c u).1 := by
  cases b with
  | node m us =>
    rw [walk_branch]
    split
    · exact collectUsers_mem_fst (Or.inr hx)
    · exact walk_nodes_mono m rem _ _ x (collectUsers_mem_fst (Or.inr hx))

theorem walk_nodes_mono (m : List (List Nat × Branch)) (rem c u : List Nat)
    (x : Nat) (hx : x ∈ c) : x ∈ (walk_nodes m rem c u).1 := by
  cases m with
  | nil => exact hx
  | cons e rest =>
    rcases e with ⟨label, child⟩
    rw [walk_nodes]
    split
    · exact walk_branch_mono child _ c u x hx
    · exact walk_nodes_mono rest rem c u x hx

end

/-! ### The walk keeps the consumed set and the result list in sync and
duplicate-free -/

mutual

theorem walk_branch_state (b : Branch) (rem c u : List Nat)
    (hn : u.Nodup) (hi : ∀ x, x ∈ c ↔ x ∈ u) :
    (walk_branch b rem c u).2.Nodup ∧
      ∀ x, x ∈ (walk_branch b rem c u).1 ↔ x ∈ (walk_branch b rem c u).2 := by
  cases b with
  | node m us =>
    have hn2 : (u ++ (collectUsers us c).2).Nodup := by
      rw [List.nodup_append]
      refine ⟨hn, collectUsers_snd_nodup us c, fun a ha hb => ?_⟩
      exact collectUsers_snd_new hb ((hi a).mpr ha)
    have hi2 : ∀ x, x ∈ (collectUsers us c).1 ↔ x ∈ u ++ (collectUsers us c).2 := by
      intro x
      rw [collectUsers_fst_mem, List.mem_append, hi x]
    rw [walk_branch]
    split
    · exact ⟨hn2, hi2⟩
    · exact walk_nodes_state m rem _ _ hn2 hi2

theorem walk_nodes_state (m : List (List Nat × Branch)) (rem c u : List Nat)
    (hn : u.Nodup) (hi : ∀ x, x ∈ c ↔ x ∈ u) :
    (walk_nodes m rem c u).2.Nodup ∧
      ∀ x, x ∈ (walk_nodes m rem c u).1 ↔ x ∈ (walk_nodes m rem c u).2 := by
  cases m with
  | nil => exact ⟨hn, hi⟩
  | cons e rest =>
    rcases e with ⟨label, child⟩
    rw [walk_nodes]
    split
    · exact walk_branch_state child _ c u hn hi
    · exact walk_nodes_state rest rem c u hn hi

end

/-! ### Soundness of the walk: whoever is collected sits on a descent path -/

mutual

theorem walk_branch_sound (b : Branch) (rem c u : List Nat) (s : Nat)
    (hb : labels_ok_branch b = true) (hs : s ∈ (walk_branch b rem c u).2) :
    s ∈ u ∨ ∃ q br, startsWith rem q = true ∧
      find_mut_branch b q = some br ∧ s ∈ br.users := by
  cases b with
  | node m us =>
    have hself : ∀ x, x ∈ (collectUsers us c).2 →
        ∃ q br, startsWith rem q = true ∧
          find_mut_branch (Branch.node m us) q = some br ∧ x ∈ br.users := by
      intro x hx
      exact ⟨[], Branch.node m us, startsWith_nil rem, rfl, collectUsers_snd_sub hx⟩
    rw [walk_branch] at hs
    split at hs
    · rcases List.mem_append.mp hs with h | h
      · exact Or.inl h
      · exact Or.inr (hself s h)
    · rcases walk_nodes_sound m rem _ _ s (by simpa [labels_ok_branch] using hb) hs with
        h | ⟨q, br, hq, hsw, hfind, hmem⟩
      · rcases List.mem_append.mp h with h | h
        · exact Or.inl h
        · exact Or.inr (hself s h)
      · refine Or.inr ⟨q, br, hsw, ?_, hmem⟩
        cases q with
        | nil => exact absurd rfl hq
        | cons r rs => exact hfind

theorem walk_nodes_sound (m : List (List Nat × Branch)) (rem c u : List Nat)
    (s : Nat) (hm : labels_ok_nodes m = true)
    (hs : s ∈ (walk_nodes m rem c u).2) :
    s ∈ u ∨ ∃ q br, q ≠ [] ∧ startsWith rem q = true ∧
      find_nodes m q = some br ∧ s ∈ br.users := by
  cases m with
  | nil => exact Or.inl hs
  | cons e rest =>
    rcases e with ⟨label, child⟩
    rw [labels_ok_nodes] at hm
    simp only [Bool.and_eq_true, Bool.not_eq_eq_eq_not, Bool.not_true] at hm
    obtain ⟨⟨hlabel, hchild⟩, hrest⟩ := hm
    have hlabel2 : label ≠ [] := by
      intro h
      rw [h] at hlabel
      simp at hlabel
    rw [walk_nodes] at hs
    split at hs
    · rename_i hsw
      rcases walk_branch_sound child _ c u s hchild hs with
        h | ⟨q2, br, hsw2, hfind2, hmem⟩
      · exact Or.inl h
      · refine Or.inr ⟨label ++ q2, br, ?_, startsWith_append hsw hsw2, ?_, hmem⟩
        · intro h
          exact hlabel2 (List.append_eq_nil.mp h).1
        · rw [find_nodes, if_pos (startsWith_append_left label q2),
            List.drop_left, hfind2]
    · rename_i hsw
      rcases walk_nodes_sound rest rem c u s hrest hs with
        h | ⟨q, br, hq, hsw2, hfind, hmem⟩
      · exact Or.inl h
      · refine Or.inr ⟨q, br, hq, hsw2, ?_, hmem⟩
        rw [find_nodes, if_neg]
        · exact hfind
        · intro h
          exact hsw (startsWith_trans hsw2 h)

end

/-! ### Helper facts about the read-only descent -/

theorem find_nodes_exists {m : List (List Nat × Branch)} {q : List Nat}
    {br : Branch} (h : find_nodes m q = some br) :
    ∃ e ∈ m, startsWith q e.1 = true := by
  induction m with
  | nil => simp [find_nodes] at h
  | cons e rest ih =>
    rcases e with ⟨label, child⟩
    rw [find_nodes] at h
    split at h
    · rename_i hsw
      exact ⟨(label, child), List.mem_cons_self _ _, hsw⟩
    · rcases ih h with ⟨e2, hmem, hsw2⟩
      exact ⟨e2, List.mem_cons_of_mem _ hmem, hsw2⟩

theorem patricia_nodes_label_ne_nil {m : List (List Nat × Branch)}
    (hp : patricia_nodes m = true) {e : List Nat × Branch} (he : e ∈ m) :
    e.1 ≠ [] := by
  induction m with
  | nil => simp at he
  | cons e2 rest ih =>
    rcases e2 with ⟨label, child⟩
    rw [patricia_nodes] at hp
    simp only [Bool.and_eq_true, Bool.not_eq_eq_eq_not, Bool.not_true] at hp
    rcases List.mem_cons.mp he with h | h
    · subst h
      intro hnil
      have hnil2 : label = [] := hnil
      rw [hnil2] at hp
      simp at hp
    · exact ih hp.2 h

/-! ### Completeness of the walk under the Patricia invariant -/

mutual

theorem walk_branch_complete (b : Branch) (rem q c u : List Nat) (br : Branch)
    (s : Nat) (hb : patricia_branch b = true)
    (hfind : find_mut_branch b q = some br) (hmem : s ∈ br.users)
    (hsw : startsWith rem q = true) : s ∈ (walk_branch b rem c u).1 := by
  cases b with
  | node m us =>
    cases q with
    | nil =>
      have hbr : br = Branch.node m us := by
        rw [find_mut_branch] at hfind
        exact (Option.some.injEq _ _ ▸ hfind).symm
      have hus : s ∈ us := by
        rw [hbr] at hmem
        exact hmem
      rw [walk_branch]
      split
      · exact collectUsers_mem_fst (Or.inl hus)
      · exact walk_nodes_mono m rem _ _ s (collectUsers_mem_fst (Or.inl hus))
    | cons r rs =>
      have hfind2 : find_nodes m (r :: rs) = some br := hfind
      have hrem : rem.isEmpty = false := by
        cases rem with
        | nil => simp [startsWith] at hsw
        | cons a as => rfl
      rw [walk_branch]
      rw [patricia_branch, Bool.and_eq_true] at hb
      split
      · rename_i h
        rw [hrem] at h
        exact absurd h (by simp)
      · exact walk_nodes_complete m rem (r :: rs) _ _ br s hb.1 hb.2 hfind2 hmem hsw

theorem walk_nodes_complete (m : List (List Nat × Branch))
    (rem q c u : List Nat) (br : Branch) (s : Nat)
    (hd : heads_distinct m = true) (hp : patricia_nodes m = true)
    (hfind : find_nodes m q = some br) (hmem : s ∈ br.users)
    (hsw : startsWith rem q = true) : s ∈ (walk_nodes m rem c u).1 := by
  cases m with
  | nil => simp [find_nodes] at hfind
  | cons e rest =>
    rcases e with ⟨label, child⟩
    rw [patricia_nodes] at hp
    simp only [Bool.and_eq_true, Bool.not_eq_eq_eq_not, Bool.not_true] at hp
    obtain ⟨⟨hlabel, hchild⟩, hrest⟩ := hp
    have hlabel2 : label ≠ [] := by
      intro h
      rw [h] at hlabel
      simp at hlabel
    rw [heads_distinct, Bool.and_eq_true] at hd
    rw [find_nodes] at hfind
    split at hfind
    · rename_i hswq
      rw [walk_nodes, if_pos (startsWith_trans hsw hswq)]
      exact walk_branch_complete child _ _ c u br s hchild hfind hmem
        (startsWith_drop label hsw)
    · rename_i hswq
      rw [walk_nodes]
      split
      · rename_i hswrem
        exfalso
        rcases find_nodes_exists hfind with ⟨e2, hmem2, hq2⟩
        have hne2 : e2.1 ≠ [] := patricia_nodes_label_ne_nil hrest hmem2
        have h1 := startsWith_head hswrem hlabel2
        have h2 := startsWith_head (startsWith_trans hsw hq2) hne2
        have hall := List.all_eq_true.mp hd.1 e2 hmem2
        simp only [bne_iff_ne, ne_eq] at hall
        exact hall (by rw [h1.2, h2.2])
      · exact walk_nodes_complete rest rem q c u br s hd.2 hrest hfind hmem hsw

end

/-! ### The query loop over all cursor positions -/

theorem find_loop_mono (t : Tree) (text c u : List Nat) (x : Nat)
    (hx : x ∈ c) : x ∈ (find_loop t text c u).1 := by
  induction text generalizing c u with
  | nil => exact hx
  | cons b rest ih =>
    rw [find_loop]
    exact ih _ _ (walk_branch_mono (t b) rest c u x hx)

theorem find_loop_state (t : Tree) (text c u : List Nat)
    (hn : u.Nodup) (hi : ∀ x, x ∈ c ↔ x ∈ u) :
    (find_loop t text c u).2.Nodup ∧
      ∀ x, x ∈ (find_loop t text c u).1 ↔ x ∈ (find_loop t text c u).2 := by
  induction text generalizing c u with
  | nil => exact ⟨hn, hi⟩
  | cons b rest ih =>
    rw [find_loop]
    obtain ⟨hn2, hi2⟩ := walk_branch_state (t b) rest c u hn hi
    exact ih _ _ hn2 hi2

theorem find_loop_sound (t : Tree) (text c u : List Nat) (s : Nat)
    (ht : labels_ok_tree t) (hs : s ∈ (find_loop t text c u).2) :
    s ∈ u ∨ ∃ i b rest q br, text.drop i = b :: rest ∧
      startsWith rest q = true ∧ find_mut_branch (t b) q = some br ∧
      s ∈ br.users := by
  induction text generalizing c u with
  | nil => exact Or.inl hs
  | cons x xs ih =>
    rw [find_loop] at hs
    rcases ih _ _ hs with h | ⟨i, b, rest, q, br, hdrop, hsw, hfind, hmem⟩
    · rcases walk_branch_sound (t x) xs c u s (ht x) h with
        h2 | ⟨q, br, hsw, hfind, hmem⟩
      · exact Or.inl h2
      · exact Or.inr ⟨0, x, xs, q, br, rfl, hsw, hfind, hmem⟩
    · exact Or.inr ⟨i + 1, b, rest, q, br, hdrop, hsw, hfind, hmem⟩

theorem find_loop_complete (t : Tree) (text : List Nat) (c u : List Nat)
    (i b : Nat) (rest q : List Nat) (br : Branch) (s : Nat)
    (hp : patricia_tree t) (hdrop : text.drop i = b :: rest)
    (hsw : startsWith rest q = true)
    (hfind : find_mut_branch (t b) q = some br) (hmem : s ∈ br.users) :
    s ∈ (find_loop t text c u).1 := by
  induction text generalizing i c u with
  | nil => simp at hdrop
  | cons x xs ih =>
    rw [find_loop]
    cases i with
    | zero =>
      simp only [List.drop_zero, List.cons.injEq] at hdrop
      apply find_loop_mono
      rw [← hdrop.1] at hfind
      rw [← hdrop.2] at hsw
      exact walk_branch_complete (t x) xs q c u br s (hp x) hfind hmem hsw
    | succ j =>
      exact ih _ _ j hdrop

/-! ### Insertion is idempotent at the branch level -/

mutual

theorem write_branch_idem (b : Branch) (rem : List Nat) (user : Nat) :
    write_branch (write_branch b rem user).2 rem user =
      (false, (write_branch b rem user).2) := by
  cases b with
  | node m us =>
    cases rem with
    | nil =>
      by_cases h : user ∈ us
      · rw [write_branch, if_pos h, write_branch, if_pos h]
      · rw [write_branch, if_neg h, write_branch,
          if_pos (List.mem_append.mpr (Or.inr (List.mem_singleton_self user)))]
    | cons r rs =>
      rw [write_branch, write_branch, write_nodes_idem m (r :: rs) user]

theorem write_nodes_idem (m : List (List Nat × Branch)) (rem : List Nat)
    (user : Nat) :
    write_nodes (write_nodes m rem user).2 rem user =
      (false, (write_nodes m rem user).2) := by
  cases m with
  | nil =>
    rw [write_nodes, write_nodes, if_pos (le_refl rem.length),
      if_pos (startsWith_refl rem), List.drop_length, write_branch,
      if_pos (List.mem_singleton_self user)]
  | cons e rest =>
    rcases e with ⟨label, child⟩
    by_cases h1 : label.length ≤ rem.length
    · by_cases h2 : startsWith rem label = true
      · rw [write_nodes, if_pos h1, if_pos h2, write_nodes, if_pos h1, if_pos h2,
          write_branch_idem child (rem.drop label.length) user]
      · rw [write_nodes, if_pos h1, if_neg h2, write_nodes, if_pos h1, if_neg h2,
          write_nodes_idem rest rem user]
    · by_cases h3 : startsWith label rem = true
      · have htake : label.take rem.length = rem :=
          (startsWith_iff_take label rem).mp h3
        rw [write_nodes, if_neg h1, if_pos h3, write_nodes, split_node, htake,
          if_pos (le_refl rem.length), if_pos (startsWith_refl rem),
          List.drop_length, write_branch,
          if_pos (List.mem_singleton_self user)]
      · rw [write_nodes, if_neg h1, if_neg h3, write_nodes, if_neg h1, if_neg h3,
          write_nodes_idem rest rem user]

end

/-! ### Insertion and removal keep all edge labels non-empty -/

mutual

theorem write_branch_labels (b : Branch) (rem : List Nat) (user : Nat)
    (hb : labels_ok_branch b = true) :
    labels_ok_branch (write_branch b rem user).2 = true := by
  cases b with
  | node m us =>
    cases rem with
    | nil =>
      by_cases h : user ∈ us
      · rw [write_branch, if_pos h]
        exact hb
      · rw [write_branch, if_neg h]
        exact hb
    | cons r rs =>
      rw [write_branch]
      rw [labels_ok_branch] at hb ⊢
      exact write_nodes_labels m (r :: rs) user hb (by simp)

theorem write_nodes_labels (m : List (List Nat × Branch)) (rem : List Nat)
    (user : Nat) (hm : labels_ok_nodes m = true) (hr : rem ≠ []) :
    labels_ok_nodes (write_nodes m rem user).2 = true := by
  cases m with
  | nil =>
    rw [write_nodes, labels_ok_nodes]
    simp [labels_ok_branch, labels_ok_nodes, hr]
  | cons e rest =>
    rcases e with ⟨label, child⟩
    rw [labels_ok_nodes] at hm
    simp only [Bool.and_eq_true, Bool.not_eq_eq_eq_not, Bool.not_true] at hm
    obtain ⟨⟨hlabel, hchild⟩, hrest⟩ := hm
    by_cases h1 : label.length ≤ rem.length
    · by_cases h2 : startsWith rem label = true
      · rw [write_nodes, if_pos h1, if_pos h2, labels_ok_nodes]
        simp only [Bool.and_eq_true, Bool.not_eq_eq_eq_not, Bool.not_true]
        exact ⟨⟨hlabel, write_branch_labels child _ user hchild⟩, hrest⟩
      · rw [write_nodes, if_pos h1, if_neg h2, labels_ok_nodes]
        simp only [Bool.and_eq_true, Bool.not_eq_eq_eq_not, Bool.not_true]
        exact ⟨⟨hlabel, hchild⟩, write_nodes_labels rest rem user hrest hr⟩
    · by_cases h3 : startsWith label rem = true
      · rw [write_nodes, if_neg h1, if_pos h3, split_node, labels_ok_nodes]
        have hlabel2 : label ≠ [] := by
          intro h
          rw [h] at hlabel
          simp at hlabel
        have htake : label.take rem.length ≠ [] := by
          simp only [ne_eq, List.take_eq_nil_iff, not_or]
          exact ⟨by simpa using hr, hlabel2⟩
        have hdrop : label.drop rem.length ≠ [] := by
          simp only [ne_eq, List.drop_eq_nil_iff, not_le]
          omega
        simp only [Bool.and_eq_true, Bool.not_eq_eq_eq_not, Bool.not_true]
        refine ⟨⟨by simpa using htake, ?_⟩, hrest⟩
        rw [labels_ok_branch, labels_ok_nodes]
        simp [labels_ok_branch, labels_ok_nodes, hdrop, hchild]
      · rw [write_nodes, if_neg h1, if_neg h3, labels_ok_nodes]
        simp only [Bool.and_eq_true, Bool.not_eq_eq_eq_not, Bool.not_true]
        exact ⟨⟨hlabel, hchild⟩, write_nodes_labels rest rem user hrest hr⟩

end

mutual

theorem remove_branch_labels (b : Branch) (rem : List Nat) (user : Nat)
    (b2 : Branch) (h : remove_branch b rem user = some b2)
    (hb : labels_ok_branch b = true) : labels_ok_branch b2 = true := by
  cases b with
  | node m us =>
    cases rem with
    | nil =>
      rw [remove_branch] at h
      rw [← Option.some.injEq _ _ |>.mp h]
      exact hb
    | cons r rs =>
      rw [remove_branch] at h
      rw [labels_ok_branch] at hb
      cases h2 : remove_nodes m (r :: rs) user with
      | none => rw [h2] at h; exact absurd h (by simp)
      | some m2 =>
        rw [h2] at h
        rw [← Option.some.injEq _ _ |>.mp h, labels_ok_branch]
        exact remove_nodes_labels m (r :: rs) user m2 h2 hb

theorem remove_nodes_labels (m : List (List Nat × Branch)) (rem : List Nat)
    (user : Nat) (m2 : List (List Nat × Branch))
    (h : remove_nodes m rem user = some m2)
    (hm : labels_ok_nodes m = true) : labels_ok_nodes m2 = true := by
  cases m with
  | nil => simp [remove_nodes] at h
  | cons e rest =>
    rcases e with ⟨label, child⟩
    rw [labels_ok_nodes] at hm
    simp only [Bool.and_eq_true, Bool.not_eq_eq_eq_not, Bool.not_true] at hm
    obtain ⟨⟨hlabel, hchild⟩, hrest⟩ := hm
    rw [remove_nodes] at h
    split at h
    · cases h2 : remove_branch child (rem.drop label.length) user with
      | none => rw [h2] at h; exact absurd h (by simp)
      | some child2 =>
        rw [h2] at h
        rw [← Option.some.injEq _ _ |>.mp h, labels_ok_nodes]
        simp only [Bool.and_eq_true, Bool.not_eq_eq_eq_not, Bool.not_true]
        exact ⟨⟨hlabel, remove_branch_labels child _ user child2 h2 hchild⟩, hrest⟩
    · cases h2 : remove_nodes rest rem user with
      | none => rw [h2] at h; exact absurd h (by simp)
      | some rest2 =>
        rw [h2] at h
        rw [← Option.some.injEq _ _ |>.mp h, labels_ok_nodes]
        simp only [Bool.and_eq_true, Bool.not_eq_eq_eq_not, Bool.not_true]
        exact ⟨⟨hlabel, hchild⟩, remove_nodes_labels rest rem user rest2 h2 hrest⟩

end

/-- Every reachable tree state has non-empty edge labels everywhere. -/
theorem reachable_labels_ok (t : Tree) (h : Reachable t) : labels_ok_tree t := by
  induction h with
  | empty => intro n; rfl
  | add t p u _ ih =>
    cases p with
    | nil => exact ih
    | cons b rest =>
      intro n
      by_cases hn : n = b
      · subst hn
        show labels_ok_branch (Function.update t n (write_branch (t n) rest u).2 n) = true
        rw [Function.update_same]
        exact write_branch_labels (t n) rest u (ih n)
      · show labels_ok_branch (Function.update t b (write_branch (t b) rest u).2 n) = true
        rw [Function.update_noteq hn]
        exact ih n
  | rem t p u _ ih =>
    cases p with
    | nil => exact ih
    | cons b rest =>
      cases h2 : remove_branch (t b) rest u with
      | none =>
        intro n
        show labels_ok_branch ((remove_item t (b :: rest) u).2 n) = true
        rw [remove_item, h2]
        exact ih n
      | some br =>
        intro n
        show labels_ok_branch ((remove_item t (b :: rest) u).2 n) = true
        rw [remove_item, h2]
        by_cases hn : n = b
        · subst hn
          show labels_ok_branch (Function.update t n br n) = true
          rw [Function.update_same]
          exact remove_branch_labels (t n) rest u br h2 (ih n)
        · show labels_ok_branch (Function.update t b br n) = true
          rw [Function.update_noteq hn]
          exact ih n

/-! ### Removal at a node the subscriber does not sit on changes nothing -/

mutual

theorem remove_branch_self (b : Branch) (rem : List Nat) (s : Nat)
    (br : Branch) (hfind : find_mut_branch b rem = some br)
    (hs : s ∉ br.users) : remove_branch b rem s = some b := by
  cases b with
  | node m us =>
    cases rem with
    | nil =>
      have hbr : br = Branch.node m us := by
        rw [find_mut_branch] at hfind
        exact (Option.some.injEq _ _ ▸ hfind).symm
      have hus : s ∉ us := by
        rw [hbr] at hs
        exact hs
      rw [remove_branch]
      congr 1
      congr 1
      refine List.filter_eq_self.mpr fun a ha => ?_
      simp only [bne_iff_ne, ne_eq]
      intro hcontra
      exact hus (hcontra ▸ ha)
    | cons r rs =>
      have hfind2 : find_nodes m (r :: rs) = some br := hfind
      rw [remove_branch, remove_nodes_self m (r :: rs) s br hfind2 hs]

theorem remove_nodes_self (m : List (List Nat × Branch)) (rem : List Nat)
    (s : Nat) (br : Branch) (hfind : find_nodes m rem = some br)
    (hs : s ∉ br.users) : remove_nodes m rem s = some m := by
  cases m with
  | nil => simp [find_nodes] at hfind
  | cons e rest =>
    rcases e with ⟨label, child⟩
    rw [find_nodes] at hfind
    rw [remove_nodes]
    split at hfind
    · rename_i hsw
      rw [if_pos hsw, remove_branch_self child _ s br hfind hs]
    · rename_i hsw
      rw [if_neg hsw, remove_nodes_self rest rem s br hfind hs]

end

/-! ### Everyone the query returns is stored somewhere in the tree -/

mutual

theorem walk_branch_users (b : Branch) (rem c u : List Nat) (s : Nat)
    (hs : s ∈ (walk_branch b rem c u).2) :
    s ∈ u ∨ s ∈ users_of_branch b := by
  cases b with
  | node m us =>
    have hcol : ∀ x, x ∈ u ++ (collectUsers us c).2 →
        x ∈ u ∨ x ∈ users_of_branch (Branch.node m us) := by
      intro x hx
      rcases List.mem_append.mp hx with h | h
      · exact Or.inl h
      · refine Or.inr ?_
        rw [users_of_branch]
        exact List.mem_append.mpr (Or.inl (collectUsers_snd_sub h))
    rw [walk_branch] at hs
    split at hs
    · exact hcol s hs
    · rcases walk_nodes_users m rem _ _ s hs with h | h
      · exact hcol s h
      · refine Or.inr ?_
        rw [users_of_branch]
        exact List.mem_append.mpr (Or.inr h)

theorem walk_nodes_users (m : List (List Nat × Branch)) (rem c u : List Nat)
    (s : Nat) (hs : s ∈ (walk_nodes m rem c u).2) :
    s ∈ u ∨ s ∈ users_of_nodes m := by
  cases m with
  | nil => exact Or.inl hs
  | cons e rest =>
    rcases e with ⟨label, child⟩
    rw [walk_nodes] at hs
    split at hs
    · rcases walk_branch_users child _ c u s hs with h | h
      · exact Or.inl h
      · refine Or.inr ?_
        rw [users_of_nodes]
        exact List.mem_append.mpr (Or.inl h)
    · rcases walk_nodes_users rest rem c u s hs with h | h
      · exact Or.inl h
      · refine Or.inr ?_
        rw [users_of_nodes]
        exact List.mem_append.mpr (Or.inr h)

end

theorem find_loop_users (t : Tree) (text c u : List Nat) (s : Nat)
    (hs : s ∈ (find_loop t text c u).2) :
    s ∈ u ∨ ∃ n, s ∈ users_of_branch (t n) := by
  induction text generalizing c u with
  | nil => exact Or.inl hs
  | cons b rest ih =>
    rw [find_loop] at hs
    rcases ih _ _ hs with h | h
    · rcases walk_branch_users (t b) rest c u s h with h2 | h2
      · exact Or.inl h2
      · exact Or.inr ⟨b, h2⟩
    · exact Or.inr h

/-! ### Loading subscribers from the persistent store (src/worker/src/postgres.rs)

`User::new` (bulk_search_tree.rs, lines 19-29) hex-decodes the signing key and
fails with `FromHexError` when the key is not valid hex.  `init_data`
(postgres.rs, lines 57-69) iterates the `users` rows and calls
`User::new(did, endpoint, private_key).unwrap()` on each: the `unwrap` turns a
decoding error into a panic that aborts the whole bulk load.  The panic is
modelled by `Option`: `none` means the process died. -/

/-- Value of one ASCII hex digit, as in the `hex` crate. -/
def hex_digit_val (c : Nat) : Option Nat :=
  if 48 ≤ c ∧ c ≤ 57 then some (c - 48)
  else if 97 ≤ c ∧ c ≤ 102 then some (c - 87)
  else if 65 ≤ c ∧ c ≤ 70 then some (c - 55)
  else none

/-- `hex::decode`: pairs of hex digits; odd length or a non-hex byte fails. -/
def hex_decode : List Nat → Option (List Nat)
  | [] => some []
  | [_] => none
  | a :: b :: rest =>
    match hex_digit_val a, hex_digit_val b, hex_decode rest with
    | some x, some y, some tl => some ((16 * x + y) :: tl)
    | _, _, _ => none

/-- The fallible part of `User::new`: decode the hex signing key into key
bytes; the id counter, did, endpoint and downtime fields play no role here. -/
def user_new (private_key : List Nat) : Option (List Nat) :=
  hex_decode private_key

/-- `init_data`, restricted to what it does with each row's signing key:
construct the user with `User::new(...).unwrap()` row by row.  A row with an
undecodable key panics (`none`); otherwise the list of decoded key bytes of
the loaded subscribers is produced in row order. -/
def init_data : List (List Nat) → Option (List (List Nat))
  | [] => some []
  | key :: rest =>
    match user_new key with
    | none => none
    | some u =>
      match init_data rest with
      | none => none
      | some us => some (u :: us)

/-! ### Delivery payload construction (`inform_user`, src/worker/src/main.rs,
lines 78-131)

The signing and HTTP side effects are abstracted: `sign` stands for
`ed25519_dalek` signing-plus-hex-encoding with the subscriber's key, and the
structure below records exactly what is put on the wire. -/

/-- The parts of the outbound POST that `inform_user` constructs. -/
structure DeliveryRequest where
  body : List Nat
  signature_header : List Nat
  timestamp_header : List Nat

/-- The decimal byte encoding `ts_seconds.to_string()` of the timestamp. -/
def decimal_bytes (n : Int) : List Nat :=
  (toString n).data.map Char.toNat

/-- `inform_user`: build `new_msg_body = format!("{ts_seconds_str}{json}")`,
sign it, then `split_off` the timestamp so the POSTed body is what follows
it, carrying the signature and the timestamp in headers. -/
def inform_user (sign : List Nat → List Nat) (ts_seconds : Int)
    (json : List Nat) : DeliveryRequest :=
  let ts_seconds_str := decimal_bytes ts_seconds
  let new_msg_body := ts_seconds_str ++ json
  let signature := sign new_msg_body
  let after_ts_seconds_str := new_msg_body.drop ts_seconds_str.length
  { body := after_ts_seconds_str
    signature_header := signature
    timestamp_header := ts_seconds_str }

/-! ## The claims -/

/-- C1, counterexample.  Subscriber 2 adds the phrase `[1,2,4]` to a tree that
already holds `[1,2,3]` for subscriber 1; subscriber 3 then adds `[1,2]`,
which splits the first edge and leaves the sibling `[2,4]` shadowed by the new
edge `[2]`.  All three adds succeed and `[1,2,4]` occurs in the text
`[1,2,4]` at position 0, yet `find_all_matches` misses subscriber 2. -/
theorem c1_completeness_counterexample :
    (add_item emptyTree [1, 2, 3] 1).1 = true ∧
    (add_item (add_item emptyTree [1, 2, 3] 1).2 [1, 2, 4] 2).1 = true ∧
    (add_item (add_item (add_item emptyTree [1, 2, 3] 1).2 [1, 2, 4] 2).2
      [1, 2] 3).1 = true ∧
    ([1, 2, 4].drop 0).take 3 = [1, 2, 4] ∧
    2 ∉ find_all_matches
      (add_item (add_item (add_item emptyTree [1, 2, 3] 1).2 [1, 2, 4] 2).2
        [1, 2] 3).2 [1, 2, 4] := by
  decide

/-- C1, amended: substring completeness holds for every tree that satisfies
the Patricia invariant (non-empty edge labels, no two sibling labels sharing
a non-empty common leading block): if phrase `p` is registered for subscriber
`s` and `p` occurs as a contiguous substring of `X` at position `i`, then `s`
is contained in `find_all_matches X`.  (The invariant itself is not preserved
by `add_item`; see the counterexample.) -/
theorem c1_completeness_patricia (t : Tree) (p : List Nat) (s : Nat)
    (X : List Nat) (i : Nat) (hpat : patricia_tree t) (hreg : registered t p s)
    (hocc : (X.drop i).take p.length = p) : s ∈ find_all_matches t X := by
  cases p with
  | nil => exact absurd hreg (by simp [registered])
  | cons b q =>
    obtain ⟨br, hfind, hmem⟩ := hreg
    cases hX : X.drop i with
    | nil =>
      rw [hX] at hocc
      simp at hocc
    | cons x xs =>
      rw [hX] at hocc
      simp only [List.length_cons, List.take_succ_cons, List.cons.injEq] at hocc
      obtain ⟨hxb, hq⟩ := hocc
      have hsw : startsWith xs q = true := (startsWith_iff_take xs q).mpr hq
      rw [← hxb] at hfind
      have hc := find_loop_complete t X [] [] i x xs q br s hpat hX hsw hfind hmem
      have hstate := find_loop_state t X [] [] List.nodup_nil (by simp)
      rw [find_all_matches]
      exact (hstate.2 s).mp hc

/-- C1, witness for the amended theorem at the singleton tree holding `[1,2]`
for subscriber 5 and the text `[9,1,2]`. -/
theorem c1_completeness_patricia_witness :
    patricia_tree (add_item emptyTree [1, 2] 5).2 ∧
    registered (add_item emptyTree [1, 2] 5).2 [1, 2] 5 ∧
    ([9, 1, 2].drop 1).take 2 = [1, 2] ∧
    5 ∈ find_all_matches (add_item emptyTree [1, 2] 5).2 [9, 1, 2] := by
  have hpat : patricia_tree (add_item emptyTree [1, 2] 5).2 := by
    intro n
    by_cases hn : n = 1
    · subst hn
      decide
    · show patricia_branch
        (Function.update emptyTree 1 (write_branch (emptyTree 1) [2] 5).2 n) = true
      rw [Function.update_noteq hn]
      rfl
  have hreg : registered (add_item emptyTree [1, 2] 5).2 [1, 2] 5 :=
    ⟨Branch.node [] [5], rfl, by decide⟩
  exact ⟨hpat, hreg, by decide,
    c1_completeness_patricia _ [1, 2] 5 [9, 1, 2] 1 hpat hreg (by decide)⟩

/-- C2, counterexample.  After `add([1,2,3], 1)` and `add([1,2,4], 2)` from
the empty tree (both successful), the root branch for byte 1 carries the two
edge labels `[2,3]` and `[2,4]`, which share the non-empty common leading
block `[2]`: the Patricia invariant does not survive this pair of adds. -/
theorem c2_patricia_counterexample :
    (add_item emptyTree [1, 2, 3] 1).1 = true ∧
    (add_item (add_item emptyTree [1, 2, 3] 1).2 [1, 2, 4] 2).1 = true ∧
    List.map Prod.fst
      (Branch.mapping
        ((add_item (add_item emptyTree [1, 2, 3] 1).2 [1, 2, 4] 2).2 1)) =
      [[2, 3], [2, 4]] ∧
    heads_distinct
      (Branch.mapping
        ((add_item (add_item emptyTree [1, 2, 3] 1).2 [1, 2, 4] 2).2 1)) =
      false := by
  decide

/-- C2, amended: after any sequence of add and remove operations starting
from the empty tree, every edge label is a non-empty byte string (the other
half of the claimed invariant, prefix-freeness of sibling labels, fails; see
the counterexample). -/
theorem c2_labels_nonempty (t : Tree) (h : Reachable t) : labels_ok_tree t :=
  reachable_labels_ok t h

/-- C2, witness at the tree holding `[1,2]` for subscriber 5. -/
theorem c2_labels_nonempty_witness :
    Reachable (add_item emptyTree [1, 2] 5).2 ∧
    labels_ok_tree (add_item emptyTree [1, 2] 5).2 := by
  have hr : Reachable (add_item emptyTree [1, 2] 5).2 :=
    Reachable.add emptyTree [1, 2] 5 Reachable.empty
  exact ⟨hr, c2_labels_nonempty _ hr⟩

/-- C3: substring soundness.  On every tree built by add/remove operations,
every subscriber returned by `find_all_matches X` has a phrase `p` registered
in the tree (the descent for `p` ends on a branch listing the subscriber)
occurring as a contiguous substring of `X` at some position `i`. -/
theorem c3_substring_soundness (t : Tree) (X : List Nat) (s : Nat)
    (hreach : Reachable t) (hs : s ∈ find_all_matches t X) :
    ∃ p i, registered t p s ∧ (X.drop i).take p.length = p := by
  have hlab := reachable_labels_ok t hreach
  rw [find_all_matches] at hs
  rcases find_loop_sound t X [] [] s hlab hs with
    h | ⟨i, b, rest, q, br, hdrop, hsw, hfind, hmem⟩
  · simp at h
  · refine ⟨b :: q, i, ⟨br, hfind, hmem⟩, ?_⟩
    rw [hdrop]
    have htake : rest.take q.length = q := (startsWith_iff_take rest q).mp hsw
    simp [List.take_succ_cons, htake]

/-- C3, witness at the tree holding `[1,2]` for subscriber 5 and the text
`[9,1,2]`. -/
theorem c3_substring_soundness_witness :
    Reachable (add_item emptyTree [1, 2] 5).2 ∧
    5 ∈ find_all_matches (add_item emptyTree [1, 2] 5).2 [9, 1, 2] ∧
    ∃ p i, registered (add_item emptyTree [1, 2] 5).2 p 5 ∧
      ([9, 1, 2].drop i).take p.length = p := by
  have hr : Reachable (add_item emptyTree [1, 2] 5).2 :=
    Reachable.add emptyTree [1, 2] 5 Reachable.empty
  exact ⟨hr, by decide, c3_substring_soundness _ [9, 1, 2] 5 hr (by decide)⟩

/-- C4: insert idempotence.  On every tree state, adding a non-empty phrase
for a subscriber twice makes the second call return `false` and leave the
tree exactly as it was after the first call. -/
theorem c4_insert_idempotence (t : Tree) (p : List Nat) (user : Nat)
    (hp : p ≠ []) :
    add_item (add_item t p user).2 p user = (false, (add_item t p user).2) := by
  cases p with
  | nil => exact absurd rfl hp
  | cons b rest =>
    have hidem := write_branch_idem (t b) rest user
    simp only [add_item, Function.update_same, hidem, Function.update_idem]

/-- C4, witness: re-adding `[1,2]` for subscriber 5. -/
theorem c4_insert_idempotence_witness :
    ([1, 2] : List Nat) ≠ [] ∧
    add_item (add_item emptyTree [1, 2] 5).2 [1, 2] 5 =
      (false, (add_item emptyTree [1, 2] 5).2) :=
  ⟨by decide, c4_insert_idempotence emptyTree [1, 2] 5 (by decide)⟩

/-- C5: deduplicated reporting.  On every tree state and text, the sequence
returned by `find_all_matches` lists each subscriber id at most once. -/
theorem c5_dedup (t : Tree) (X : List Nat) : (find_all_matches t X).Nodup :=
  (find_loop_state t X [] [] List.nodup_nil (by simp)).1

/-- C6: remove-after-add round trip.  From the empty tree, `add(p, s)`
followed by `remove(p, s)` yields a tree on which no text matches `s`. -/
theorem c6_remove_after_add (p : List Nat) (s : Nat) (X : List Nat)
    (hp : p ≠ []) :
    s ∉ find_all_matches (remove_item (add_item emptyTree p s).2 p s).2 X := by
  cases p with
  | nil => exact absurd rfl hp
  | cons b rest =>
    intro hmem
    rw [find_all_matches] at hmem
    rcases find_loop_users _ X [] [] s hmem with h | ⟨n, hn⟩
    · simp at h
    · revert hn
      cases rest with
      | nil =>
        have h1 : (add_item emptyTree [b] s).2 =
            Function.update emptyTree b (Branch.node [] [s]) := by
          simp [add_item, emptyTree, emptyBranch, write_branch]
        rw [h1]
        have h2 : (remove_item (Function.update emptyTree b (Branch.node [] [s]))
            [b] s).2 = Function.update
              (Function.update emptyTree b (Branch.node [] [s])) b
              (Branch.node [] []) := by
          simp [remove_item, Function.update_same, remove_branch]
        rw [h2]
        by_cases hb : n = b
        · subst hb
          rw [Function.update_same]
          simp [users_of_branch, users_of_nodes]
        · rw [Function.update_noteq hb, Function.update_noteq hb]
          simp [emptyTree, emptyBranch, users_of_branch, users_of_nodes]
      | cons r rs =>
        have h1 : (add_item emptyTree (b :: r :: rs) s).2 =
            Function.update emptyTree b
              (Branch.node [(r :: rs, Branch.node [] [s])] []) := by
          simp [add_item, emptyTree, emptyBranch, write_branch, write_nodes]
        rw [h1]
        have h2 : (remove_item (Function.update emptyTree b
            (Branch.node [(r :: rs, Branch.node [] [s])] []))
            (b :: r :: rs) s).2 = Function.update
              (Function.update emptyTree b
                (Branch.node [(r :: rs, Branch.node [] [s])] [])) b
              (Branch.node [(r :: rs, Branch.node [] [])] []) := by
          rw [remove_item, Function.update_same, remove_branch, remove_nodes,
            if_pos (startsWith_refl (r :: rs)), List.drop_length, remove_branch]
          simp
        rw [h2]
        by_cases hb : n = b
        · subst hb
          rw [Function.update_same]
          simp [users_of_branch, users_of_nodes]
        · rw [Function.update_noteq hb, Function.update_noteq hb]
          simp [emptyTree, emptyBranch, users_of_branch, users_of_nodes]

/-- C6, witness: `add([1,2], 5)` then `remove([1,2], 5)` and the text
`[1,2]`. -/
theorem c6_remove_after_add_witness :
    ([1, 2] : List Nat) ≠ [] ∧
    5 ∉ find_all_matches
      (remove_item (add_item emptyTree [1, 2] 5).2 [1, 2] 5).2 [1, 2] :=
  ⟨by decide, c6_remove_after_add [1, 2] 5 [1, 2] (by decide)⟩

/-- C7: empty-phrase rejection.  On every tree state, `add_item` and
`remove_item` with the empty phrase return `false` and leave the tree
untouched. -/
theorem c7_empty_phrase (t : Tree) (u : Nat) :
    add_item t [] u = (false, t) ∧ remove_item t [] u = (false, t) :=
  ⟨rfl, rfl⟩

/-- C8, counterexample.  `init_data` on a row whose signing key `"gg"` is not
valid hex followed by a row with the valid key `"aa"`: the whole bulk load
dies (`none`) instead of skipping the bad subscriber and loading the good
one, whose key decodes fine on its own. -/
theorem c8_invalid_key_counterexample :
    init_data [[103, 103], [97, 97]] = none ∧
    user_new [103, 103] = none ∧
    user_new [97, 97] = some [170] := by
  decide

/-- C8, amended: invalid signing key material for any loaded subscriber is
fatal for the whole bulk load (the `unwrap` in `init_data` panics), not just
for that subscriber: no row is skipped and the remaining subscribers are not
loaded. -/
theorem c8_invalid_key_aborts_load (rows : List (List Nat)) (key : List Nat)
    (hmem : key ∈ rows) (hbad : user_new key = none) :
    init_data rows = none := by
  induction rows with
  | nil => simp at hmem
  | cons k rest ih =>
    rw [init_data]
    rcases List.mem_cons.mp hmem with h | h
    · rw [← h, hbad]
    · cases hk : user_new k with
      | none => rfl
      | some u => rw [ih h]

/-- C8, witness for the amended theorem. -/
theorem c8_invalid_key_aborts_load_witness :
    [103, 103] ∈ [[103, 103], [97, 97]] ∧
    user_new [103, 103] = none ∧
    init_data [[103, 103], [97, 97]] = none :=
  ⟨by decide, by decide,
    c8_invalid_key_aborts_load [[103, 103], [97, 97]] [103, 103]
      (by decide) (by decide)⟩

/-- C9: delivery payload construction.  `inform_user` signs the concatenation
of the decimal-encoded Unix-seconds timestamp and the JSON body, POSTs
exactly the JSON body, and carries the signature and the decimal timestamp in
the two signature headers. -/
theorem c9_delivery_payload (sign : List Nat → List Nat) (ts : Int)
    (json : List Nat) :
    (inform_user sign ts json).body = json ∧
    (inform_user sign ts json).signature_header =
      sign (decimal_bytes ts ++ json) ∧
    (inform_user sign ts json).timestamp_header = decimal_bytes ts := by
  refine ⟨?_, rfl, rfl⟩
  show (decimal_bytes ts ++ json).drop (decimal_bytes ts).length = json
  exact List.drop_left _ _

/-- C10: a successful removal descent returns `true` regardless of whether
the subscriber sits on the branch it ends on; when the subscriber is absent
there, the tree is returned unchanged. -/
theorem c10_remove_true_without_membership (t : Tree) (b : Nat)
    (rest : List Nat) (s : Nat) (br : Branch)
    (hfind : find_mut_branch (t b) rest = some br) (hs : s ∉ br.users) :
    remove_item t (b :: rest) s = (true, t) := by
  rw [remove_item, remove_branch_self (t b) rest s br hfind hs]
  simp [Function.update_eq_self]

/-- C10, witness: removing `[1,2]` for the absent subscriber 5 from the tree
holding `[1,2]` for subscriber 7. -/
theorem c10_remove_true_without_membership_witness :
    find_mut_branch ((add_item emptyTree [1, 2] 7).2 1) [2] =
      some (Branch.node [] [7]) ∧
    5 ∉ (Branch.node [] [7]).users ∧
    remove_item (add_item emptyTree [1, 2] 7).2 [1, 2] 5 =
      (true, (add_item emptyTree [1, 2] 7).2) :=
  ⟨rfl, by decide,
    c10_remove_true_without_membership (add_item emptyTree [1, 2] 7).2 1 [2] 5
      (Branch.node [] [7]) rfl (by decide)⟩

end Bluehook
